import Mathlib

/-!
Verification of the POD readme parser (`src/services/readme-parser.ts`).
Strings are modelled as `List Char`; every JavaScript string operation and
regular expression the parser uses is embedded as an executable function
with the same semantics on that representation.
-/

namespace CpanReadme

/-- Character list of a Lean string literal. -/
def ofStr (s : String) : List Char := s.data

/-- The character class of JavaScript `\s` (ECMAScript WhiteSpace and
LineTerminator), also the set trimmed by `String.prototype.trim`. -/
def isJsSpace (c : Char) : Bool :=
  c = ' ' || c = '\t' || c = '\n' || c = '\r' ||
  c = '\u000B' || c = '\u000C' || c = '\u00A0' || c = '\u1680' ||
  ('\u2000' <= c && c <= '\u200A') || c = '\u2028' || c = '\u2029' ||
  c = '\u202F' || c = '\u205F' || c = '\u3000' || c = '\uFEFF'

/-- The character class of JavaScript `\w`: ASCII letters, digits, underscore. -/
def isWordChar (c : Char) : Bool :=
  c.isAlpha || c.isDigit || c = '_'

/-- Case-insensitive character comparison, as canonicalised by a `/i` regex
flag (ASCII case folding is all the embedded patterns need). -/
def charEqCI (a b : Char) : Bool := a.toLower = b.toLower

/-- Case-sensitive literal-text match at the head of `s` (first argument is
the literal). -/
def isPre : List Char → List Char → Bool
  | [], _ => true
  | _ :: _, [] => false
  | p :: ps, c :: cs => p = c && isPre ps cs

/-- Case-insensitive literal-text match at the head of `s`. -/
def isPreCI : List Char → List Char → Bool
  | [], _ => true
  | _ :: _, [] => false
  | p :: ps, c :: cs => charEqCI p c && isPreCI ps cs

/-- JavaScript `String.prototype.trim`: strip `isJsSpace` characters from both
ends. -/
def trimJs (l : List Char) : List Char :=
  ((l.dropWhile isJsSpace).reverse.dropWhile isJsSpace).reverse

/-- JavaScript `s.split('\n')`: `""` splits to `[""]`, separators are not kept. -/
def splitNL : List Char → List (List Char)
  | [] => [[]]
  | c :: rest =>
    if c = '\n' then [] :: splitNL rest
    else
      match splitNL rest with
      | h :: t => (c :: h) :: t
      | [] => [[c]]

/-- `Array.prototype.join('\n')`. -/
def joinNL : List (List Char) → List Char
  | [] => []
  | [l] => l
  | l :: rest => l ++ '\n' :: joinNL rest

/-- JavaScript `hay.indexOf(needle)`: index of the first occurrence, `none`
for `-1`. -/
def idxOf (hay needle : List Char) : Option Nat :=
  if needle.isPrefixOf hay then some 0
  else
    match hay with
    | [] => none
    | _ :: t => (idxOf t needle).map (· + 1)

/-- One global pass of `.replace(/\n{3,}/g, '\n\n')`, tracked by the number
`k` of newline characters already seen in the current run: the first two
newlines of a run are kept, every further one is dropped, so a maximal run
of three or more newlines becomes exactly two. -/
def collapseAux : Nat → List Char → List Char
  | _, [] => []
  | k, c :: rest =>
    if c = '\n' then (if 2 ≤ k then [] else ['\n']) ++ collapseAux (k + 1) rest
    else c :: collapseAux 0 rest

/-- The renderer's blank-line normalisation step
(`.replace(/\n{3,}/g, '\n\n')` in `convertPodToReadme`). -/
def collapseNewlines (s : List Char) : List Char := collapseAux 0 s

/-- `line.match(/^\s{2,}/)`: the line opens with at least two whitespace
characters (the parser's test for a POD code line). -/
def isIndented2 (l : List Char) : Bool :=
  match l with
  | a :: b :: _ => isJsSpace a && isJsSpace b
  | _ => false

/-- `line.replace(/^\s{2,}/, '')`: remove the maximal leading whitespace run
when it has at least two characters, otherwise leave the line alone. -/
def stripIndentLine (l : List Char) : List Char :=
  if 2 ≤ (l.takeWhile isJsSpace).length then l.dropWhile isJsSpace else l

/-- Content cut-off of the section regexes: the lazy group stops at the
earliest position where the lookahead `(?=\n=head1|\n=cut|$)` holds (the
`=head1`/`=cut` literals are case-insensitive under the `/i` flag). -/
def takeUntilTerm : List Char → List Char
  | [] => []
  | c :: rest =>
    if isPreCI (ofStr "\n=head1") (c :: rest) || isPreCI (ofStr "\n=cut") (c :: rest) then []
    else c :: takeUntilTerm rest

/-- Tail of the section regexes after the section name: `\s*\n` consumes the
whitespace run up to and including its last newline (greedy `\s*` backtracks
to the last `\n` of the run), then the lazy body runs to `takeUntilTerm`'s
cut-off.  Fails when the whitespace run after the name holds no newline. -/
def sectTail (rest3 : List Char) : Option (List Char) :=
  let w2 := rest3.takeWhile isJsSpace
  if w2.contains '\n' then
    let tailLen := (w2.reverse.takeWhile (fun c => c ≠ '\n')).length
    some (takeUntilTerm (rest3.drop (w2.length - tailLen)))
  else none

/-- Regex alternation over the section-name literals (`SYNOPSIS`, or
`EXAMPLES|EXAMPLE` from `EXAMPLES?`), case-insensitive, each alternative
continuing with `sectTail`. -/
def tryNames : List (List Char) → List Char → Option (List Char)
  | [], _ => none
  | n :: ns, rest2 =>
    match (if isPreCI n rest2 then sectTail (rest2.drop n.length) else none) with
    | some c => some c
    | none => tryNames ns rest2

/-- Attempt of the full section pattern `=head1\s+NAME\s*\n(body)` at the
head of `s`: the literal `=head1` (case-insensitive), one or more whitespace
characters, then a section-name alternative. -/
def tryHead1At (names : List (List Char)) (s : List Char) : Option (List Char) :=
  if isPreCI (ofStr "=head1") s then
    let rest1 := s.drop 6
    let w := rest1.takeWhile isJsSpace
    if w.length = 0 then none
    else tryNames names (rest1.drop w.length)
  else none

/-- `podContent.match(/=head1\s+NAME\s*\n([\s\S]*?)(?=\n=head1|\n=cut|$)/i)`:
the leftmost position where the pattern matches, returning the captured
section body (`none` when the document has no such section). -/
def sectionScan (names : List (List Char)) : List Char → Option (List Char)
  | [] => none
  | c :: rest =>
    match tryHead1At names (c :: rest) with
    | some content => some content
    | none => sectionScan names rest

/-- Name alternatives of the `SYNOPSIS` section regex. -/
def synopsisNames : List (List Char) := [ofStr "SYNOPSIS"]

/-- Name alternatives of the `EXAMPLES?` section regex. -/
def examplesNames : List (List Char) := [ofStr "EXAMPLES", ofStr "EXAMPLE"]

/-- Loop body of `extractPodCodeBlocks`: walk the lines, growing the current
block with each de-indented code line, flushing the trimmed block at each
non-code line (and at the end) when it trims to something non-empty. -/
def podBlocksGo : List (List Char) → List Char → Bool → List (List Char)
  | [], cur, _ => if 0 < (trimJs cur).length then [trimJs cur] else []
  | l :: rest, cur, inB =>
    if isIndented2 l then podBlocksGo rest (cur ++ stripIndentLine l ++ ['\n']) true
    else if inB then
      (if 0 < (trimJs cur).length then [trimJs cur] else []) ++ podBlocksGo rest [] false
    else podBlocksGo rest cur inB

/-- `extractPodCodeBlocks`: the ordered de-indented, trimmed code blocks of
a section body (indentation-delimited runs of lines). -/
def extractPodCodeBlocks (content : List Char) : List (List Char) :=
  podBlocksGo (splitNL content) [] false

/-- Attempt of `/=head[234]\s+([^\n]+)\s*$/` at the head of `s`: `=head`
followed by a digit 2-4, one or more whitespace characters (greedy, shrunk
only when the remainder would be empty), then the captured maximal run of
non-newline characters; the trailing `\s*$` always succeeds at the capture's
end under the `/m` flag. -/
def headCaptureAt (s : List Char) : Option (List Char) :=
  if isPre (ofStr "=head") s then
    match s.drop 5 with
    | d :: rest0 =>
      if d = '2' || d = '3' || d = '4' then
        let w := rest0.takeWhile isJsSpace
        if w.length = 0 then none
        else
          let afterW := rest0.drop w.length
          if 0 < afterW.length then some (afterW.takeWhile (fun c => c ≠ '\n'))
          else
            match (List.range w.length).reverse.find?
                (fun p => decide (1 ≤ p) && ((w.drop p).head? ≠ some '\n')) with
            | some p => some ((rest0.drop p).takeWhile (fun c => c ≠ '\n'))
            | none => none
      else none
    | [] => none
  else none

/-- `beforeCode.match(/=head[234]\s+([^\n]+)\s*$/m)`: capture of the leftmost
match in the context window. -/
def findHeadCapture : List Char → Option (List Char)
  | [] => none
  | c :: rest =>
    match headCaptureAt (c :: rest) with
    | some cap => some cap
    | none => findHeadCapture rest

/-- Reverse line walk of `extractExampleTitleFromContext`: the first line
(nearest the code block) whose trimmed text is non-empty, does not start
with `=` and is shorter than 50 characters. -/
def titleLineScan : List (List Char) → Option (List Char)
  | [] => none
  | line :: rest =>
    let t := trimJs line
    if 0 < t.length ∧ t.head? ≠ some '=' ∧ t.length < 50 then some t
    else titleLineScan rest

/-- Acceptance test of the reverse line walk: trimmed text non-empty, not
`=`-initial, under 50 characters. -/
def titleLineOk (l : List Char) : Prop :=
  0 < (trimJs l).length ∧ (trimJs l).head? ≠ some '=' ∧ (trimJs l).length < 50

/-- The title computation on the context window alone: the first
`=head[234]` capture in the window (trimmed), else the reverse line walk. -/
def titleFromWindow (beforeCode : List Char) : Option (List Char) :=
  match findHeadCapture beforeCode with
  | some cap => some (trimJs cap)
  | none => titleLineScan (splitNL beforeCode).reverse

/-- `extractExampleTitleFromContext`: locate the code block's first
occurrence in the context, keep the up-to-200-character window before it and
apply `titleFromWindow`; `none` when the block text does not occur at all. -/
def extractExampleTitleFromContext (content codeBlock : List Char) : Option (List Char) :=
  match idxOf content codeBlock with
  | none => none
  | some codeIndex =>
    titleFromWindow ((content.take codeIndex).drop (codeIndex - 200))

/-- Accumulation loop of `extractExampleDescriptionFromContext`: gather
trimmed plain lines after the block, single-space-joined; a blank or
directive line before any text is skipped, after some text it stops the
walk; the walk also stops once more than 200 characters are gathered. -/
def descGo : List (List Char) → List Char → List Char
  | [], desc => desc
  | line :: rest, desc =>
    let t := trimJs line
    if t.length = 0 ∨ t.head? = some '=' then
      if 0 < desc.length then desc else descGo rest desc
    else
      let d2 := desc ++ (if 0 < desc.length then [' '] else []) ++ t
      if 200 < d2.length then d2 else descGo rest d2

/-- `extractExampleDescriptionFromContext`: walk the 300 characters after the
block's first occurrence and keep the gathered text when longer than 10
characters. -/
def extractExampleDescriptionFromContext (content codeBlock : List Char) : Option (List Char) :=
  match idxOf content codeBlock with
  | none => none
  | some codeIndex =>
    let afterCode := (content.drop (codeIndex + codeBlock.length)).take 300
    let d := descGo (splitNL afterCode) []
    if 10 < d.length then some d else none

/-- True when the predicate holds at the head of some suffix of `s`
(regex `test`: a match may start anywhere). -/
def sfx (p : List Char → Bool) : List Char → Bool
  | [] => p []
  | c :: rest => p (c :: rest) || sfx p rest

/-- `\s+` then a continuation: one whitespace character, then the rest of the
maximal whitespace run is skipped before the continuation (all the parser's
patterns continue with a non-whitespace class, so greedy matching reduces to
the maximal run). -/
def afterSp1 (k : List Char → Bool) : List Char → Bool
  | c :: rest => isJsSpace c && k (rest.dropWhile isJsSpace)
  | [] => false

/-- `\w` at the head. -/
def wordAt : List Char → Bool
  | c :: _ => isWordChar c
  | [] => false

/-- `/use\s+\w+/`. -/
def useTest (s : List Char) : Bool :=
  sfx (fun l => isPre (ofStr "use") l && afterSp1 wordAt (l.drop 3)) s

/-- `/my\s+\$\w+/`. -/
def myTest (s : List Char) : Bool :=
  sfx (fun l =>
    isPre (ofStr "my") l &&
    afterSp1 (fun m =>
      match m with
      | c :: r => c = '$' && wordAt r
      | [] => false) (l.drop 2)) s

/-- `/\$\w+/`. -/
def scalarTest (s : List Char) : Bool :=
  sfx (fun l =>
    match l with
    | c :: r => c = '$' && wordAt r
    | [] => false) s

/-- `/@\w+/`. -/
def arrayTest (s : List Char) : Bool :=
  sfx (fun l =>
    match l with
    | c :: r => c = '@' && wordAt r
    | [] => false) s

/-- `/%\w+/`. -/
def hashTest (s : List Char) : Bool :=
  sfx (fun l =>
    match l with
    | c :: r => c = '%' && wordAt r
    | [] => false) s

/-- The method-call pattern `->\w+` (tested anywhere in the string). -/
def arrowTest (s : List Char) : Bool :=
  sfx (fun l =>
    match l with
    | a :: b :: r => a = '-' && b = '>' && wordAt r
    | _ => false) s

/-- `sub\s+\w+` at the head. -/
def subDeclAt (l : List Char) : Bool :=
  isPre (ofStr "sub") l && afterSp1 wordAt (l.drop 3)

/-- `/\bsub\s+\w+/`: the word boundary holds at the string start or after a
non-word character. -/
def subTest (s : List Char) : Bool :=
  subDeclAt s ||
  sfx (fun l =>
    match l with
    | c :: rest => !isWordChar c && subDeclAt rest
    | [] => false) s

/-- `/print\s+/`. -/
def printTest (s : List Char) : Bool :=
  sfx (fun l =>
    isPre (ofStr "print") l &&
    (match l.drop 5 with
     | c :: _ => isJsSpace c
     | [] => false)) s

/-- The `perlIndicators` array of `looksLikePerl`, in source order. -/
def perlIndicators : List (List Char → Bool) :=
  [useTest, myTest, scalarTest, arrayTest, hashTest, arrowTest, subTest, printTest]

/-- `looksLikePerl`: `perlIndicators.some(regex => regex.test(code))`. -/
def looksLikePerl (code : List Char) : Bool :=
  perlIndicators.any (fun r => r code)

/-- `UsageExample` (`src/types/index.ts`): title, code, fixed language tag
and optional description. -/
structure UsageExample where
  title : List Char
  code : List Char
  language : List Char
  description : Option (List Char)
deriving DecidableEq, Repr

/-- `title || fallback` at the call sites: the fallback replaces both a
missing title and an empty (falsy) one. -/
def titleOrFallback (t : Option (List Char)) (fallback : List Char) : List Char :=
  match t with
  | some s => if s.length = 0 then fallback else s
  | none => fallback

/-- `extractSynopsisExamples`: every non-empty code block of the `SYNOPSIS`
section becomes an example with the fixed title and description. -/
def extractSynopsisExamples (podContent : List Char) : List UsageExample :=
  match sectionScan synopsisNames podContent with
  | none => []
  | some raw =>
    let synopsisContent := trimJs raw
    (extractPodCodeBlocks synopsisContent).filterMap (fun code =>
      if 0 < (trimJs code).length then
        some { title := ofStr "Synopsis", code := trimJs code, language := ofStr "perl",
               description := some (ofStr "Basic usage example from the module synopsis") }
      else none)

/-- `Example ${index + 1}` for the zero-based block index. -/
def exampleFallback (idx : Nat) : List Char :=
  ofStr "Example " ++ (Nat.repr (idx + 1)).data

/-- `extractExampleSectionExamples`: every non-empty code block of the
`EXAMPLES` (or `EXAMPLE`) section becomes an example whose title falls back
to `Example N` and whose description comes from the context. -/
def extractExampleSectionExamples (podContent : List Char) : List UsageExample :=
  match sectionScan examplesNames podContent with
  | none => []
  | some raw =>
    let examplesContent := trimJs raw
    (extractPodCodeBlocks examplesContent).enum.filterMap (fun p =>
      if 0 < (trimJs p.2).length then
        some { title := titleOrFallback
                 (extractExampleTitleFromContext examplesContent p.2) (exampleFallback p.1),
               code := trimJs p.2, language := ofStr "perl",
               description := extractExampleDescriptionFromContext examplesContent p.2 }
      else none)

/-- One greedy iteration chain of `(?:\n\s{2,}.*)*`: at a literal newline
followed by a run of at least two whitespace characters (JavaScript `\s`
includes the newline itself, so the run can span blank lines and swallow the
indentation — and then the text — of a following line), consume the newline,
the maximal whitespace run and the rest of that line, then repeat; stop
otherwise.  Returns the consumed extension and the remainder, fueled by the
string length (every iteration consumes at least three characters). -/
def runExtendGo : Nat → List Char → List Char × List Char
  | 0, s => ([], s)
  | _ + 1, [] => ([], [])
  | fuel + 1, c :: rest =>
    if c = '\n' ∧ 2 ≤ (rest.takeWhile isJsSpace).length then
      let w := rest.takeWhile isJsSpace
      let afterW := rest.drop w.length
      let d := afterW.takeWhile (fun x => x ≠ '\n')
      let p := runExtendGo fuel (afterW.drop d.length)
      ('\n' :: (w ++ d ++ p.1), p.2)
    else ([], c :: rest)

/-- Global exec loop of `/^(\s{2,}.*(?:\n\s{2,}.*)*)/gm`: a match starts at
a line start (string start, or right after a newline) opening with at least
two whitespace characters — a maximal run that may itself span newlines, so
a match can start at a blank line and then carries that leading newline —
and takes the run, the rest of the line, and every `runExtendGo` iteration.
Scanning resumes right after the match, whose last character is never a
newline, so the very next position is not a line start. -/
def runScanGo : Nat → Bool → List Char → List (List Char)
  | 0, _, _ => []
  | _ + 1, _, [] => []
  | fuel + 1, atLS, c :: rest =>
    if atLS ∧ 2 ≤ ((c :: rest).takeWhile isJsSpace).length then
      let w := (c :: rest).takeWhile isJsSpace
      let afterW := (c :: rest).drop w.length
      let d := afterW.takeWhile (fun x => x ≠ '\n')
      let p := runExtendGo fuel (afterW.drop d.length)
      (w ++ d ++ p.1) :: runScanGo fuel false p.2
    else runScanGo fuel (c = '\n') rest

/-- The matched texts (`match[0]`) of the whole-document indented-run scan,
in document order. -/
def indentedRuns (podContent : List Char) : List (List Char) :=
  runScanGo (podContent.length + 1) true podContent

/-- One pass of `replace(/^\s{2,}/gm, '')`: at every line start opening
with at least two whitespace characters the maximal whitespace run is
removed — since `\s` matches the newline, the run at a whitespace-only line
consumes through its newline into the next line.  After a removal the next
character is not whitespace, so no match can start there and the line-start
flag passed on is irrelevant. -/
def deindentGo : Nat → Bool → List Char → List Char
  | 0, _, s => s
  | _ + 1, _, [] => []
  | fuel + 1, atLS, c :: rest =>
    if atLS ∧ 2 ≤ ((c :: rest).takeWhile isJsSpace).length then
      deindentGo fuel false ((c :: rest).drop ((c :: rest).takeWhile isJsSpace).length)
    else c :: deindentGo fuel (c = '\n') rest

/-- `match[1].replace(/^\s{2,}/gm, '')`: de-indent a matched run. -/
def deindentAll (run : List Char) : List Char :=
  deindentGo (run.length + 1) true run

/-- `extractCodeBlockExamples`: the whole-document pass over indented runs,
keeping a run when its de-indented trimmed text is longer than 10 characters
and looks like Perl; title and description are inferred against the whole
document from the indented run text. -/
def extractCodeBlockExamples (podContent : List Char) : List UsageExample :=
  (indentedRuns podContent).filterMap (fun run =>
    let code := trimJs (deindentAll run)
    if 10 < code.length ∧ looksLikePerl code then
      some { title := titleOrFallback
               (extractExampleTitleFromContext podContent run) (ofStr "Code Example"),
             code := code, language := ofStr "perl",
             description := extractExampleDescriptionFromContext podContent run }
    else none)

/-- Body of `parseUsageExamples`'s `try` block: the three passes in fixed
order, concatenated.  The embedded passes are total, so the body is typed in
`Except` only to mirror the source's exception boundary. -/
def parseUsageExamplesBody (podContent : List Char) : Except (List Char) (List UsageExample) :=
  Except.ok (extractSynopsisExamples podContent ++
    extractExampleSectionExamples podContent ++
    extractCodeBlockExamples podContent)

/-- The `catch` clause: an error becomes the empty list. -/
def catchToEmptyList (r : Except (List Char) (List UsageExample)) : List UsageExample :=
  match r with
  | Except.ok l => l
  | Except.error _ => []

/-- `parseUsageExamples`: the three passes inside the try/catch boundary. -/
def parseUsageExamples (podContent : List Char) : List UsageExample :=
  catchToEmptyList (parseUsageExamplesBody podContent)

/-- Largest backtracking split of `\s+(.+)` when the string ends inside the
whitespace run `w`: the largest `p` with `1 ≤ p < w.length` whose character
`w[p]` is not a newline (so `.` can match there). -/
def lastDotPos (w : List Char) : Option Nat :=
  (List.range w.length).reverse.find?
    (fun p => decide (1 ≤ p) && ((w.drop p).head? ≠ some '\n'))

/-- Attempt of a heading regex `=headN\s+(.+)` at the head of `s`: on
success, the captured maximal non-newline run and the remainder of the
string after the whole match. -/
def tryHeadMatch (marker : List Char) (s : List Char) : Option (List Char × List Char) :=
  if isPre marker s then
    let rest1 := s.drop marker.length
    let w := rest1.takeWhile isJsSpace
    if w.length = 0 then none
    else
      let afterW := rest1.drop w.length
      if 0 < afterW.length then
        let cap := afterW.takeWhile (fun c => c ≠ '\n')
        some (cap, afterW.drop cap.length)
      else
        match lastDotPos w with
        | some p =>
          let cap := (rest1.drop p).takeWhile (fun c => c ≠ '\n')
          some (cap, rest1.drop (p + cap.length))
        | none => none
  else none

/-- Global left-to-right scan of `.replace(/=headN\s+(.+)/g, 'MARK $1')`,
fueled by the string length (every match consumes at least one character). -/
def replaceHeadGo (marker hashes : List Char) : Nat → List Char → List Char
  | 0, s => s
  | _ + 1, [] => []
  | fuel + 1, c :: rest =>
    match tryHeadMatch marker (c :: rest) with
    | some (cap, rem) => hashes ++ cap ++ replaceHeadGo marker hashes fuel rem
    | none => c :: replaceHeadGo marker hashes fuel rest

/-- One heading-translation pass of `convertPodToReadme`. -/
def replaceHead (marker hashes s : List Char) : List Char :=
  replaceHeadGo marker hashes s.length s

/-- Global scan of an inline-formatting replace such as
`.replace(/I<([^>]+)>/g, '*$1*')`: at `X<`, the non-empty maximal run of
non-`>` characters followed by `>` is rewrapped between `pre` and `post`. -/
def replaceInlineGo (op : Char) (pre post : List Char) : Nat → List Char → List Char
  | 0, s => s
  | _ + 1, [] => []
  | fuel + 1, c :: rest =>
    if c = op then
      match rest with
      | l :: inner0 =>
        if l = '<' then
          let innerTxt := inner0.takeWhile (fun d => d ≠ '>')
          if 0 < innerTxt.length ∧ (inner0.drop innerTxt.length).head? = some '>' then
            pre ++ innerTxt ++ post ++
              replaceInlineGo op pre post fuel (inner0.drop (innerTxt.length + 1))
          else c :: replaceInlineGo op pre post fuel rest
        else c :: replaceInlineGo op pre post fuel rest
      | [] => [c]
    else c :: replaceInlineGo op pre post fuel rest

/-- One inline-formatting pass of `convertPodToReadme`. -/
def replaceInline (op : Char) (pre post s : List Char) : List Char :=
  replaceInlineGo op pre post s.length s

/-- The code-fencing line walk of `convertPodToReadme`: a fence opens before
the first code line of a run, closes at the first non-code line after it,
and at the document end when still inside a run; code lines are
de-indented. -/
def fenceGo : List (List Char) → Bool → List (List Char)
  | [], inB => if inB then [ofStr "```"] else []
  | l :: rest, inB =>
    if isIndented2 l then
      (if inB then [] else [ofStr "```perl"]) ++ (stripIndentLine l :: fenceGo rest true)
    else
      (if inB then [ofStr "```"] else []) ++ (l :: fenceGo rest false)

/-- `line.match(/^=(?:pod|cut|over|back|item)/)`: the line starts with one of
the five directive markers (any trailing content is irrelevant). -/
def isDirectiveLine (l : List Char) : Bool :=
  isPre (ofStr "=pod") l || isPre (ofStr "=cut") l || isPre (ofStr "=over") l ||
  isPre (ofStr "=back") l || isPre (ofStr "=item") l

/-- The directive-stripping filter of `convertPodToReadme`. -/
def removeDirectiveLines (ls : List (List Char)) : List (List Char) :=
  ls.filter (fun l => !isDirectiveLine l)

/-- `convertPodToReadme`: heading translation, inline translation, code
fencing, directive stripping, blank-line collapsing, and a final trim. -/
def convertPodToReadme (podContent : List Char) : List Char :=
  if podContent.length = 0 then []
  else
    let r1 := replaceHead (ofStr "=head1") (ofStr "# ") podContent
    let r2 := replaceHead (ofStr "=head2") (ofStr "## ") r1
    let r3 := replaceHead (ofStr "=head3") (ofStr "### ") r2
    let r4 := replaceHead (ofStr "=head4") (ofStr "#### ") r3
    let r5 := replaceInline 'I' (ofStr "*") (ofStr "*") r4
    let r6 := replaceInline 'B' (ofStr "**") (ofStr "**") r5
    let r7 := replaceInline 'C' (ofStr "`") (ofStr "`") r6
    let r8 := replaceInline 'L' [] [] r7
    let fenced := fenceGo (splitNL r8) false
    trimJs (collapseNewlines (joinNL (removeDirectiveLines fenced)))

/-- A case-insensitive occurrence of `=head1` anywhere in the string. -/
def hasHead1CI (s : List Char) : Bool :=
  sfx (isPreCI (ofStr "=head1")) s

/-- An occurrence of a section-terminating lookahead alternative
(`\n=head1` or `\n=cut`, case-insensitive) anywhere in the string. -/
def hasTermB (s : List Char) : Bool :=
  sfx (fun l => isPreCI (ofStr "\n=head1") l || isPreCI (ofStr "\n=cut") l) s

/-- A case-insensitive occurrence of the literal `pat` anywhere in `s`. -/
def hasSubCI (pat s : List Char) : Bool :=
  sfx (isPreCI pat) s

/-- Document with an `EXAMPLES` section holding two sub-headings, each
followed by one Perl-like indented code block. -/
def c2doc : List Char :=
  ofStr "=head1 EXAMPLES\n\n=head2 First\n\n  my $x = Foo->new;\n\n=head2 Second\n\n  my $y = Bar->new;\n"

/-- Section body with two headings before one code block: `Beta` is the
nearest preceding heading, `Alpha` the earliest in the window. -/
def c3near : List Char := ofStr "=head2 Alpha\n\n=head3 Beta\n\n  use Foo;\n"

/-- Section body whose only heading sits more than 200 characters before the
code block. -/
def c3far : List Char :=
  ofStr "=head2 Gamma\n" ++ List.replicate 260 'x' ++ ofStr "\n  use Bar;\n"

/-- Section body with two same-level headings before one code block. -/
def c3onetwo : List Char := ofStr "=head2 One\n\n=head2 Two\n\n  use Qux;\n"

/-- Section body where the only short text line is separated from the code
block by a directive line and a blank line. -/
def c3skip : List Char := ofStr "Nice Title\n=item x\n\n  use Baz;\n"

/-- Document with an `EXAMPLES` section whose only heading is more than 200
characters before its code block. -/
def c3fardoc : List Char :=
  ofStr "=head1 EXAMPLES\n\n=head2 Far\n" ++ List.replicate 260 'x' ++
    ofStr "\n\n  my $long = 1;\n"

/-- Section body whose two-line indented block repeats, unindented, in the
plain text above it. -/
def c6content : List Char :=
  ofStr "My Title\nuse Foo;\nuse Bar;\n\n  use Foo;\n  use Bar;\n"

/-- The de-indented, trimmed text of `c6content`'s indented block. -/
def c6block : List Char := ofStr "use Foo;\nuse Bar;"

set_option maxRecDepth 40000

/-! Helper lemmas. -/

theorem collapseAux_min (l : List Char) :
    ∀ k, collapseAux (min k 2) (collapseAux k l) = collapseAux k l := by
  induction l with
  | nil => intro k; rfl
  | cons c rest ih =>
    intro k
    by_cases hc : c = '\n'
    · subst hc
      by_cases hk : 2 ≤ k
      · have h0 : collapseAux k ('\n' :: rest) = collapseAux (k + 1) rest := by
          simp [collapseAux, hk]
        have hmin : min k 2 = 2 := by omega
        have hmin' : min (k + 1) 2 = 2 := by omega
        rw [h0, hmin]
        have := ih (k + 1)
        rwa [hmin'] at this
      · have hk01 : k = 0 ∨ k = 1 := by omega
        rcases hk01 with h | h <;> subst h
        · have h0 : collapseAux 0 ('\n' :: rest) = '\n' :: collapseAux 1 rest := by
            simp [collapseAux]
          rw [h0]
          show collapseAux 0 ('\n' :: collapseAux 1 rest) = '\n' :: collapseAux 1 rest
          have h1 : collapseAux 0 ('\n' :: collapseAux 1 rest)
              = '\n' :: collapseAux 1 (collapseAux 1 rest) := by
            simp [collapseAux]
          rw [h1]
          have := ih 1
          rw [show min 1 2 = 1 from rfl] at this
          rw [this]
        · have h0 : collapseAux 1 ('\n' :: rest) = '\n' :: collapseAux 2 rest := by
            simp [collapseAux]
          rw [h0]
          show collapseAux 1 ('\n' :: collapseAux 2 rest) = '\n' :: collapseAux 2 rest
          have h1 : collapseAux 1 ('\n' :: collapseAux 2 rest)
              = '\n' :: collapseAux 2 (collapseAux 2 rest) := by
            simp [collapseAux]
          rw [h1]
          have := ih 2
          rw [show min 2 2 = 2 from rfl] at this
          rw [this]
    · have h0 : collapseAux k (c :: rest) = c :: collapseAux 0 rest := by
        simp [collapseAux, hc]
      rw [h0]
      have h1 : collapseAux (min k 2) (c :: collapseAux 0 rest)
          = c :: collapseAux 0 (collapseAux 0 rest) := by
        simp [collapseAux, hc]
      rw [h1]
      have := ih 0
      rw [show min 0 2 = 0 from rfl] at this
      rw [this]

theorem collapseAux_of_head_ne (b : List Char) (hb : b.head? ≠ some '\n') (j : Nat) :
    collapseAux j b = collapseAux 0 b := by
  cases b with
  | nil => rfl
  | cons c rest =>
    have hc : c ≠ '\n' := by intro h; exact hb (by simp [h])
    simp [collapseAux, hc]

theorem collapseAux_run (b : List Char) (hb : b.head? ≠ some '\n') :
    ∀ (k j : Nat), collapseAux j (List.replicate k '\n' ++ b)
      = List.replicate (min k (2 - j)) '\n' ++ collapseAux 0 b := by
  intro k
  induction k with
  | zero => intro j; simpa using collapseAux_of_head_ne b hb j
  | succ k ih =>
    intro j
    rw [List.replicate_succ, List.cons_append]
    have h0 : collapseAux j ('\n' :: (List.replicate k '\n' ++ b))
        = (if 2 ≤ j then ([] : List Char) else ['\n']) ++
          collapseAux (j + 1) (List.replicate k '\n' ++ b) := by
      simp [collapseAux]
    rw [h0, ih (j + 1)]
    by_cases hj : 2 ≤ j
    · have h1 : min (k + 1) (2 - j) = 0 := by omega
      have h2 : min k (2 - (j + 1)) = 0 := by omega
      simp only [h1, h2]
      simp [hj]
    · have h1 : min (k + 1) (2 - j) = min k (2 - (j + 1)) + 1 := by omega
      rw [h1, List.replicate_succ]
      simp [hj]

theorem collapseAux_append (a : List Char) (ha : a ≠ []) (hlast : a.getLast? ≠ some '\n') :
    ∀ (rest : List Char) (j : Nat),
      collapseAux j (a ++ rest) = collapseAux j a ++ collapseAux 0 rest := by
  induction a with
  | nil => exact absurd rfl ha
  | cons x a' ih =>
    intro rest j
    cases a' with
    | nil =>
      have hx : x ≠ '\n' := by
        intro h; exact hlast (by simp [h])
      simp [collapseAux, hx]
    | cons y a'' =>
      have hlast' : (y :: a'').getLast? ≠ some '\n' := by
        rwa [List.getLast?_cons_cons] at hlast
      by_cases hx : x = '\n'
      · subst hx
        have h0 : ∀ m, collapseAux j ('\n' :: m)
            = (if 2 ≤ j then ([] : List Char) else ['\n']) ++ collapseAux (j + 1) m := by
          intro m; simp [collapseAux]
        rw [List.cons_append, h0, h0, ih (by simp) hlast' rest (j + 1), List.append_assoc]
      · have h0 : ∀ m, collapseAux j (x :: m) = x :: collapseAux 0 m := by
          intro m; simp [collapseAux, hx]
        rw [List.cons_append, h0, h0, ih (by simp) hlast' rest 0, List.cons_append]

theorem perm_any_eq {α : Type} (l m : List α) (h : l.Perm m) (f : α → Bool) :
    l.any f = m.any f := by
  cases hm : m.any f
  · rw [List.any_eq_false] at hm ⊢
    intro x hx; exact hm x (h.mem_iff.mp hx)
  · rw [List.any_eq_true] at hm ⊢
    obtain ⟨x, hx, hfx⟩ := hm
    exact ⟨x, h.mem_iff.mpr hx, hfx⟩

theorem idxOf_first (needle : List Char) :
    ∀ (hay : List Char) (i : Nat), idxOf hay needle = some i →
      needle.isPrefixOf (hay.drop i) = true ∧
      ∀ j, j < i → needle.isPrefixOf (hay.drop j) = false := by
  intro hay
  induction hay with
  | nil =>
    intro i h
    by_cases hp : needle.isPrefixOf ([] : List Char) = true
    · unfold idxOf at h
      rw [if_pos hp] at h
      cases h
      exact ⟨hp, by intro j hj; omega⟩
    · unfold idxOf at h
      rw [if_neg hp] at h
      cases h
  | cons x t ih =>
    intro i h
    by_cases hp : needle.isPrefixOf (x :: t) = true
    · unfold idxOf at h
      rw [if_pos hp] at h
      cases h
      exact ⟨hp, by intro j hj; omega⟩
    · unfold idxOf at h
      rw [if_neg hp] at h
      have hp' : needle.isPrefixOf (x :: t) = false := by
        exact Bool.not_eq_true _ |>.mp hp
      obtain ⟨i', hi', rfl⟩ := Option.map_eq_some'.mp h
      obtain ⟨hpre, hmin⟩ := ih i' hi'
      constructor
      · simpa using hpre
      · intro j hj
        cases j with
        | zero => simpa using hp'
        | succ j' =>
          have := hmin j' (by omega)
          simpa using this

theorem dropWhile_of_head_false (p : Char → Bool) (l : List Char)
    (h : ∀ a, l.head? = some a → p a = false) : List.dropWhile p l = l := by
  cases l with
  | nil => rfl
  | cons x t =>
    have hx : p x = false := h x rfl
    simp [List.dropWhile_cons, hx]

theorem head_dropWhile_false (p : Char → Bool) (l : List Char) (a : Char)
    (h : (List.dropWhile p l).head? = some a) : p a = false := by
  have := List.head?_dropWhile_not p l
  rw [h] at this
  exact this

theorem getLast?_of_suffix {l m : List Char} (h : l <:+ m) (hne : l ≠ []) :
    l.getLast? = m.getLast? := by
  obtain ⟨t, rfl⟩ := h
  exact (List.getLast?_append_of_ne_nil t hne).symm

theorem trimJs_trimJs (l : List Char) : trimJs (trimJs l) = trimJs l := by
  have hsh : ∀ m : List Char, trimJs m
      = (List.dropWhile isJsSpace (List.dropWhile isJsSpace m).reverse).reverse :=
    fun m => rfl
  rcases eq_or_ne (List.dropWhile isJsSpace (List.dropWhile isJsSpace l).reverse) [] with hB | hB
  · rw [hsh l, hB]
    rfl
  · have hA : List.dropWhile isJsSpace l ≠ [] := by
      intro h
      apply hB
      rw [h]
      rfl
    obtain ⟨a, ha⟩ : ∃ a, (List.dropWhile isJsSpace l).head? = some a := by
      cases h : (List.dropWhile isJsSpace l).head? with
      | none => exact absurd (List.head?_eq_none_iff.mp h) hA
      | some a => exact ⟨a, rfl⟩
    have hpa : isJsSpace a = false := head_dropWhile_false _ _ _ ha
    have hBrev : (List.dropWhile isJsSpace (List.dropWhile isJsSpace l).reverse).reverse.head?
        = some a := by
      rw [List.head?_reverse,
        getLast?_of_suffix (List.dropWhile_suffix isJsSpace) hB,
        List.getLast?_reverse]
      exact ha
    have h1 : List.dropWhile isJsSpace
        (List.dropWhile isJsSpace (List.dropWhile isJsSpace l).reverse).reverse
        = (List.dropWhile isJsSpace (List.dropWhile isJsSpace l).reverse).reverse := by
      apply dropWhile_of_head_false
      intro x hx
      rw [hBrev] at hx
      cases hx
      exact hpa
    have h2 : List.dropWhile isJsSpace
        (List.dropWhile isJsSpace (List.dropWhile isJsSpace l).reverse)
        = List.dropWhile isJsSpace (List.dropWhile isJsSpace l).reverse := by
      apply dropWhile_of_head_false
      intro x hx
      exact head_dropWhile_false _ _ _ hx
    rw [hsh (trimJs l), hsh l, h1, List.reverse_reverse, h2]

theorem podBlocksGo_mem :
    ∀ (lines : List (List Char)) (cur : List Char) (inB : Bool) (b : List Char),
      b ∈ podBlocksGo lines cur inB → ∃ c, b = trimJs c ∧ 0 < b.length := by
  intro lines
  induction lines with
  | nil =>
    intro cur inB b hb
    unfold podBlocksGo at hb
    by_cases h : 0 < (trimJs cur).length
    · rw [if_pos h] at hb
      rcases List.mem_singleton.mp hb with rfl
      exact ⟨cur, rfl, h⟩
    · rw [if_neg h] at hb
      exact absurd hb (List.not_mem_nil b)
  | cons l rest ih =>
    intro cur inB b hb
    unfold podBlocksGo at hb
    by_cases hind : isIndented2 l = true
    · rw [if_pos hind] at hb
      exact ih _ _ b hb
    · rw [if_neg hind] at hb
      by_cases hinB : inB = true
      · rw [if_pos hinB] at hb
        rcases List.mem_append.mp hb with hb1 | hb2
        · by_cases h : 0 < (trimJs cur).length
          · rw [if_pos h] at hb1
            rcases List.mem_singleton.mp hb1 with rfl
            exact ⟨cur, rfl, h⟩
          · rw [if_neg h] at hb1
            exact absurd hb1 (List.not_mem_nil b)
        · exact ih _ _ b hb2
      · rw [if_neg hinB] at hb
        exact ih _ _ b hb

theorem extractPodCodeBlocks_trim (content b : List Char)
    (hb : b ∈ extractPodCodeBlocks content) : trimJs b = b ∧ 0 < b.length := by
  obtain ⟨c, rfl, h⟩ := podBlocksGo_mem _ _ _ _ hb
  exact ⟨trimJs_trimJs c, h⟩

theorem mem_synopsis_code (pod : List Char) (ex : UsageExample)
    (hex : ex ∈ extractSynopsisExamples pod) :
    ∃ c, ex.code = trimJs c ∧ 0 < (trimJs c).length := by
  unfold extractSynopsisExamples at hex
  cases hsec : sectionScan synopsisNames pod with
  | none => rw [hsec] at hex; exact absurd hex (List.not_mem_nil ex)
  | some raw =>
    rw [hsec] at hex
    obtain ⟨code, _, hsome⟩ := List.mem_filterMap.mp hex
    by_cases h : 0 < (trimJs code).length
    · rw [if_pos h] at hsome
      cases hsome
      exact ⟨code, rfl, h⟩
    · rw [if_neg h] at hsome
      cases hsome

theorem mem_section_code (pod : List Char) (ex : UsageExample)
    (hex : ex ∈ extractExampleSectionExamples pod) :
    ∃ c, ex.code = trimJs c ∧ 0 < (trimJs c).length := by
  unfold extractExampleSectionExamples at hex
  cases hsec : sectionScan examplesNames pod with
  | none => rw [hsec] at hex; exact absurd hex (List.not_mem_nil ex)
  | some raw =>
    rw [hsec] at hex
    obtain ⟨p, _, hsome⟩ := List.mem_filterMap.mp hex
    by_cases h : 0 < (trimJs p.2).length
    · rw [if_pos h] at hsome
      cases hsome
      exact ⟨p.2, rfl, h⟩
    · rw [if_neg h] at hsome
      cases hsome

theorem mem_codeblock_code (pod : List Char) (ex : UsageExample)
    (hex : ex ∈ extractCodeBlockExamples pod) :
    ∃ c, ex.code = trimJs c ∧ 0 < (trimJs c).length := by
  unfold extractCodeBlockExamples at hex
  obtain ⟨run, _, hsome⟩ := List.mem_filterMap.mp hex
  dsimp only at hsome
  by_cases h : 10 < (trimJs (deindentAll run)).length ∧
      looksLikePerl (trimJs (deindentAll run)) = true
  · rw [if_pos h] at hsome
    cases hsome
    exact ⟨deindentAll run, rfl, by omega⟩
  · rw [if_neg h] at hsome
    cases hsome

theorem takeUntilTerm_eq_self (b : List Char) (h : hasTermB b = false) :
    takeUntilTerm b = b := by
  induction b with
  | nil => rfl
  | cons c rest ih =>
    unfold hasTermB sfx at h
    rw [Bool.or_eq_false_iff] at h
    obtain ⟨h1, h2⟩ := h
    unfold takeUntilTerm
    rw [h1]
    simp only [Bool.false_eq_true, if_false]
    rw [ih h2]

theorem sectTail_cons_nl (body : List Char) (hb : List.takeWhile isJsSpace body = []) :
    sectTail ('\n' :: body) = some (takeUntilTerm body) := by
  unfold sectTail
  rw [List.takeWhile_cons, show isJsSpace '\n' = true from rfl, if_pos rfl, hb]
  rfl

theorem tryHead1At_syn (body : List Char) (hb : List.takeWhile isJsSpace body = []) :
    tryHead1At synopsisNames (ofStr "=head1 SYNOPSIS\n" ++ body)
      = some (takeUntilTerm body) := by
  have hcons : ofStr "=head1 SYNOPSIS\n" ++ body
      = '=' :: 'h' :: 'e' :: 'a' :: 'd' :: '1' :: ' ' :: 'S' :: 'Y' :: 'N' :: 'O' :: 'P' ::
        'S' :: 'I' :: 'S' :: '\n' :: body := rfl
  have hmid : tryHead1At synopsisNames
      ('=' :: 'h' :: 'e' :: 'a' :: 'd' :: '1' :: ' ' :: 'S' :: 'Y' :: 'N' :: 'O' :: 'P' ::
        'S' :: 'I' :: 'S' :: '\n' :: body)
      = (match sectTail ('\n' :: body) with
         | some c => some c
         | none => tryNames [] ('S' :: 'Y' :: 'N' :: 'O' :: 'P' :: 'S' :: 'I' :: 'S' :: '\n' :: body)) :=
    rfl
  rw [hcons, hmid, sectTail_cons_nl body hb]

theorem sectionScan_syn (body : List Char) (hb : List.takeWhile isJsSpace body = [])
    (hterm : hasTermB body = false) :
    sectionScan synopsisNames (ofStr "=head1 SYNOPSIS\n" ++ body) = some body := by
  have hstep : sectionScan synopsisNames (ofStr "=head1 SYNOPSIS\n" ++ body)
      = (match tryHead1At synopsisNames (ofStr "=head1 SYNOPSIS\n" ++ body) with
         | some content => some content
         | none => sectionScan synopsisNames (ofStr "head1 SYNOPSIS\n" ++ body)) := rfl
  rw [hstep, tryHead1At_syn body hb, takeUntilTerm_eq_self body hterm]

theorem tryHead1At_none (names : List (List Char)) (s : List Char)
    (h : isPreCI (ofStr "=head1") s = false) : tryHead1At names s = none := by
  unfold tryHead1At
  rw [h]
  simp

theorem sectionScan_none (names : List (List Char)) :
    ∀ s : List Char, hasHead1CI s = false → sectionScan names s = none := by
  intro s
  induction s with
  | nil => intro _; rfl
  | cons c rest ih =>
    intro h
    unfold hasHead1CI sfx at h
    rw [Bool.or_eq_false_iff] at h
    obtain ⟨h1, h2⟩ := h
    unfold sectionScan
    rw [tryHead1At_none names _ h1]
    exact ih h2

theorem takeUntilTerm_spec (s : List Char) :
    ∃ rest, s = takeUntilTerm s ++ rest ∧
      (rest = [] ∨ isPreCI (ofStr "\n=head1") rest = true ∨ isPreCI (ofStr "\n=cut") rest = true) ∧
      ∀ pre suf, takeUntilTerm s = pre ++ suf → suf ≠ [] →
        isPreCI (ofStr "\n=head1") (suf ++ rest) = false ∧
        isPreCI (ofStr "\n=cut") (suf ++ rest) = false := by
  induction s with
  | nil =>
    refine ⟨[], rfl, Or.inl rfl, ?_⟩
    intro pre suf h hs
    rcases List.append_eq_nil.mp h.symm with ⟨-, h2⟩
    exact absurd h2 hs
  | cons c s' ih =>
    by_cases hterm : (isPreCI (ofStr "\n=head1") (c :: s') ||
        isPreCI (ofStr "\n=cut") (c :: s')) = true
    · have h0 : takeUntilTerm (c :: s') = [] := by
        simp only [takeUntilTerm]
        rw [if_pos hterm]
      refine ⟨c :: s', by rw [h0]; rfl, ?_, ?_⟩
      · rw [Bool.or_eq_true] at hterm
        rcases hterm with h | h
        · exact Or.inr (Or.inl h)
        · exact Or.inr (Or.inr h)
      · intro pre suf h hs
        rw [h0] at h
        rcases List.append_eq_nil.mp h.symm with ⟨-, h2⟩
        exact absurd h2 hs
    · have h0 : takeUntilTerm (c :: s') = c :: takeUntilTerm s' := by
        simp only [takeUntilTerm]
        rw [if_neg hterm]
      have hterm' : isPreCI (ofStr "\n=head1") (c :: s') = false ∧
          isPreCI (ofStr "\n=cut") (c :: s') = false := by
        rw [← Bool.or_eq_false_iff]
        simpa using hterm
      obtain ⟨rest, hsplit, hrest, hmin⟩ := ih
      refine ⟨rest, ?_, hrest, ?_⟩
      · rw [h0, List.cons_append, ← hsplit]
      · intro pre suf h hs
        rw [h0] at h
        cases pre with
        | nil =>
          have hsuf : suf = c :: takeUntilTerm s' := by simpa using h.symm
          subst hsuf
          have hcs : (c :: takeUntilTerm s') ++ rest = c :: s' := by
            rw [List.cons_append, ← hsplit]
          rw [hcs]
          exact ⟨hterm'.1, hterm'.2⟩
        | cons p pre' =>
          rw [List.cons_append] at h
          injection h with h1 h2
          exact hmin pre' suf h2 hs

theorem sfx_false_suffix (p : List Char → Bool) :
    ∀ s : List Char, sfx p s = false → ∀ t, t <:+ s → p t = false := by
  intro s
  induction s with
  | nil =>
    intro h t ht
    rw [List.suffix_nil.mp ht]
    exact h
  | cons c rest ih =>
    intro h t ht
    unfold sfx at h
    rw [Bool.or_eq_false_iff] at h
    rcases List.suffix_cons_iff.mp ht with rfl | ht'
    · exact h.1
    · exact ih h.2 t ht'

theorem tryHead1At_noname (s : List Char)
    (h : ∀ t, t <:+ s → isPreCI (ofStr "SYNOPSIS") t = false) :
    tryHead1At synopsisNames s = none := by
  unfold tryHead1At
  by_cases h1 : isPreCI (ofStr "=head1") s = true
  · rw [if_pos h1]
    by_cases h2 : ((s.drop 6).takeWhile isJsSpace).length = 0
    · rw [if_pos h2]
    · rw [if_neg h2]
      have hsuf : ((s.drop 6).drop ((s.drop 6).takeWhile isJsSpace).length) <:+ s :=
        (List.drop_suffix _ _).trans (List.drop_suffix _ _)
      have hname := h _ hsuf
      unfold synopsisNames tryNames
      rw [hname]
      simp [tryNames]
  · rw [if_neg h1]

theorem sectionScan_noname :
    ∀ s : List Char, (∀ t, t <:+ s → isPreCI (ofStr "SYNOPSIS") t = false) →
      sectionScan synopsisNames s = none := by
  intro s
  induction s with
  | nil => intro _; rfl
  | cons c rest ih =>
    intro h
    unfold sectionScan
    rw [tryHead1At_noname _ h]
    exact ih (fun t ht => h t (ht.trans (List.suffix_cons c rest)))

theorem sectionScan_syn_general (body : List Char)
    (hb : List.takeWhile isJsSpace body = []) :
    sectionScan synopsisNames (ofStr "=head1 SYNOPSIS\n" ++ body)
      = some (takeUntilTerm body) := by
  have hstep : sectionScan synopsisNames (ofStr "=head1 SYNOPSIS\n" ++ body)
      = (match tryHead1At synopsisNames (ofStr "=head1 SYNOPSIS\n" ++ body) with
         | some content => some content
         | none => sectionScan synopsisNames (ofStr "head1 SYNOPSIS\n" ++ body)) := rfl
  rw [hstep, tryHead1At_syn body hb]

theorem findHeadCapture_first :
    ∀ (w cap : List Char), findHeadCapture w = some cap →
      ∃ n, headCaptureAt (w.drop n) = some cap ∧
        ∀ m, m < n → headCaptureAt (w.drop m) = none := by
  intro w
  induction w with
  | nil => intro cap h; cases h
  | cons c rest ih =>
    intro cap h
    unfold findHeadCapture at h
    cases hh : headCaptureAt (c :: rest) with
    | some cap' =>
      rw [hh] at h
      cases h
      exact ⟨0, hh, by intro m hm; omega⟩
    | none =>
      rw [hh] at h
      obtain ⟨n, hn, hmin⟩ := ih cap h
      refine ⟨n + 1, by simpa using hn, ?_⟩
      intro m hm
      cases m with
      | zero => simpa using hh
      | succ m' => simpa using hmin m' (by omega)

theorem findHeadCapture_none_iff :
    ∀ w : List Char, findHeadCapture w = none ↔ ∀ n, headCaptureAt (w.drop n) = none := by
  intro w
  induction w with
  | nil =>
    constructor
    · intro _ n
      rw [List.drop_nil]
      rfl
    · intro _; rfl
  | cons c rest ih =>
    constructor
    · intro h n
      unfold findHeadCapture at h
      cases hh : headCaptureAt (c :: rest) with
      | some cap => rw [hh] at h; cases h
      | none =>
        rw [hh] at h
        cases n with
        | zero => simpa using hh
        | succ n' => simpa using ih.mp h n'
    · intro h
      unfold findHeadCapture
      have h0 : headCaptureAt (c :: rest) = none := by simpa using h 0
      rw [h0]
      exact ih.mpr (fun n => by simpa using h (n + 1))

theorem titleLineScan_some :
    ∀ (ls : List (List Char)) (t : List Char), titleLineScan ls = some t →
      ∃ pre line post, ls = pre ++ line :: post ∧ t = trimJs line ∧ titleLineOk line ∧
        ∀ l ∈ pre, ¬ titleLineOk l := by
  intro ls
  induction ls with
  | nil => intro t h; cases h
  | cons line rest ih =>
    intro t h
    unfold titleLineScan at h
    by_cases hok : 0 < (trimJs line).length ∧ (trimJs line).head? ≠ some '=' ∧
        (trimJs line).length < 50
    · rw [if_pos hok] at h
      cases h
      exact ⟨[], line, rest, rfl, rfl, hok, by simp⟩
    · rw [if_neg hok] at h
      obtain ⟨pre, l2, post, hsplit, ht, hok2, hpre⟩ := ih t h
      refine ⟨line :: pre, l2, post, by rw [hsplit]; rfl, ht, hok2, ?_⟩
      intro l hl
      rcases List.mem_cons.mp hl with rfl | hl'
      · exact hok
      · exact hpre l hl'

theorem titleLineScan_none_iff :
    ∀ ls : List (List Char), titleLineScan ls = none ↔ ∀ l ∈ ls, ¬ titleLineOk l := by
  intro ls
  induction ls with
  | nil => simp [titleLineScan]
  | cons line rest ih =>
    constructor
    · intro h l hl
      unfold titleLineScan at h
      by_cases hok : 0 < (trimJs line).length ∧ (trimJs line).head? ≠ some '=' ∧
          (trimJs line).length < 50
      · rw [if_pos hok] at h; cases h
      · rw [if_neg hok] at h
        rcases List.mem_cons.mp hl with rfl | hl'
        · exact hok
        · exact (ih.mp h) l hl'
    · intro h
      have hok : ¬ (0 < (trimJs line).length ∧ (trimJs line).head? ≠ some '=' ∧
          (trimJs line).length < 50) := h line (List.mem_cons_self line rest)
      unfold titleLineScan
      dsimp only
      rw [if_neg hok]
      exact ih.mpr (fun l hl => h l (List.mem_cons_of_mem line hl))

/-! Claim theorems. -/

/-- Claim C1, counterexample: a `SYNOPSIS` section introduced by a level-2
heading is not found at all (the finder and the Synopsis pass both come back
empty), and a level-2 heading inside a level-1 `SYNOPSIS` section does not
terminate it — the captured body runs straight through `=head2 X`. -/
theorem c1_counterexample :
    sectionScan synopsisNames (ofStr "=head2 SYNOPSIS\n  use Foo;\n") = none ∧
    extractSynopsisExamples (ofStr "=head2 SYNOPSIS\n  use Foo;\n") = [] ∧
    sectionScan synopsisNames (ofStr "=head1 SYNOPSIS\n  a\n=head2 X\n  b\n")
      = some (ofStr "  a\n=head2 X\n  b\n") := by decide

/-- Claim C1, amended: the section finder matches only a level-1 heading
(`=head1`, case-insensitive) whose text equals the section name, and returns
the text strictly between that heading line and the earliest following
`\n=head1` or `\n=cut` (case-insensitive), or the document end, whichever
comes first; level-2/3/4 headings neither introduce nor terminate a section.
Stated as four parts: a document with no case-insensitive `=head1` yields no
section; a document with no case-insensitive occurrence of the section name
(e.g. only differently-named `=head1` headings) yields no section; a
well-formed level-1 `SYNOPSIS` heading yields exactly the cut-off body
`takeUntilTerm body`; and `takeUntilTerm` returns the prefix up to the
earliest terminator — the remainder is empty or starts with a terminator,
and no terminator matches at any position strictly inside the capture. -/
theorem c1_section_finder_amended :
    (∀ (names : List (List Char)) (s : List Char), hasHead1CI s = false →
      sectionScan names s = none) ∧
    (∀ s : List Char, hasSubCI (ofStr "SYNOPSIS") s = false →
      sectionScan synopsisNames s = none) ∧
    (∀ body : List Char, List.takeWhile isJsSpace body = [] →
      sectionScan synopsisNames (ofStr "=head1 SYNOPSIS\n" ++ body)
        = some (takeUntilTerm body)) ∧
    (∀ s : List Char, ∃ rest, s = takeUntilTerm s ++ rest ∧
      (rest = [] ∨ isPreCI (ofStr "\n=head1") rest = true ∨
        isPreCI (ofStr "\n=cut") rest = true) ∧
      ∀ pre suf, takeUntilTerm s = pre ++ suf → suf ≠ [] →
        isPreCI (ofStr "\n=head1") (suf ++ rest) = false ∧
        isPreCI (ofStr "\n=cut") (suf ++ rest) = false) :=
  ⟨fun names s h => sectionScan_none names s h,
   fun s h => sectionScan_noname s (sfx_false_suffix _ s h),
   fun body hb => sectionScan_syn_general body hb,
   takeUntilTerm_spec⟩

/-- Claim C1, witness: the amended finder at concrete inputs — capture
truncated at a `=cut` directive, a differently-named heading yielding no
section, and a heading-free document yielding no section. -/
theorem c1_witness :
    sectionScan synopsisNames (ofStr "=head1 SYNOPSIS\nbody line\n=cut\nmore")
      = some (ofStr "body line") ∧
    sectionScan synopsisNames (ofStr "=head1 NAME\nFoo - a module\n") = none ∧
    sectionScan synopsisNames (ofStr "plain text only") = none := by
  refine ⟨?_, ?_, ?_⟩
  · have h : sectionScan synopsisNames (ofStr "=head1 SYNOPSIS\nbody line\n=cut\nmore")
        = some (takeUntilTerm (ofStr "body line\n=cut\nmore")) :=
      c1_section_finder_amended.2.2.1 (ofStr "body line\n=cut\nmore") (by decide)
    rw [h]
    decide
  · exact c1_section_finder_amended.2.1 _ (by decide)
  · exact c1_section_finder_amended.1 synopsisNames _ (by decide)

/-- Claim C2, counterexample: on a document whose `EXAMPLES` section has two
sub-headings each followed by a Perl-like code block, the full three-pass
pipeline returns four examples, not two (the whole-document pass re-emits
both blocks). -/
theorem c2_counterexample : (parseUsageExamples c2doc).length = 4 := by decide

/-- Claim C2, amended: on such a document the Examples pass emits one example
per block but titles both with the first sub-heading text (the earliest
heading in the 200-character window, so the second block's title is `First`,
not `Second`), and the whole-document pass appends the same two blocks again:
four examples in all, every title `First`. -/
theorem c2_pipeline_amended :
    (parseUsageExamples c2doc).map (fun e => e.title)
      = [ofStr "First", ofStr "First", ofStr "First", ofStr "First"] ∧
    (parseUsageExamples c2doc).map (fun e => e.code)
      = [ofStr "my $x = Foo->new;", ofStr "my $y = Bar->new;",
         ofStr "my $x = Foo->new;", ofStr "my $y = Bar->new;"] := by decide

/-- Claim C3, counterexample: with two headings inside the 200-character
window the title is the earliest one (`Alpha`), not the nearest (`Beta`);
and a heading 260 characters before the block is not seen at all, so the
helper returns nothing rather than that heading. -/
theorem c3_counterexample :
    extractExampleTitleFromContext c3near (ofStr "use Foo;") = some (ofStr "Alpha") ∧
    extractExampleTitleFromContext c3far (ofStr "use Bar;") = none := by decide

/-- Claim C3, amended: for every section text and block that occurs in it,
the derived title is computed from the at-most-200-character window before
the block's first occurrence alone; the heading branch returns the capture
of the earliest position in the window where the `=head[234]` pattern
matches and fails exactly when no position in the window matches (so a
heading farther back than the window can never contribute); when it fails,
the line branch returns the trimmed text of the closest preceding line that
is non-empty, not `=`-initial and under 50 characters after trimming,
skipping every closer line failing these tests, and fails exactly when no
line qualifies; the caller's fallback (`Example N` in the Examples pass) is
used exactly when the helper fails or yields an empty title.  The last
conjunct instantiates the three behaviours: earliest-in-window heading,
beyond-window heading falling back to `Example 1`, and a qualifying text
line separated from the block by a directive line. -/
theorem c3_title_window_amended :
    (∀ (content block : List Char) (i : Nat), idxOf content block = some i →
      extractExampleTitleFromContext content block
          = titleFromWindow ((content.take i).drop (i - 200)) ∧
      ((content.take i).drop (i - 200)).length ≤ 200) ∧
    (∀ w cap : List Char, findHeadCapture w = some cap →
      ∃ n, headCaptureAt (w.drop n) = some cap ∧
        ∀ m, m < n → headCaptureAt (w.drop m) = none) ∧
    (∀ w : List Char, findHeadCapture w = none ↔ ∀ n, headCaptureAt (w.drop n) = none) ∧
    (∀ (ls : List (List Char)) (t : List Char), titleLineScan ls = some t →
      ∃ pre line post, ls = pre ++ line :: post ∧ t = trimJs line ∧ titleLineOk line ∧
        ∀ l ∈ pre, ¬ titleLineOk l) ∧
    (∀ ls : List (List Char), titleLineScan ls = none ↔ ∀ l ∈ ls, ¬ titleLineOk l) ∧
    (∀ fb : List Char, titleOrFallback none fb = fb ∧ titleOrFallback (some []) fb = fb) ∧
    (∀ s fb : List Char, s ≠ [] → titleOrFallback (some s) fb = s) ∧
    (extractExampleTitleFromContext c3onetwo (ofStr "use Qux;") = some (ofStr "One") ∧
      (extractExampleSectionExamples c3fardoc).map (fun e => e.title) = [ofStr "Example 1"] ∧
      extractExampleTitleFromContext c3skip (ofStr "use Baz;") = some (ofStr "Nice Title")) := by
  refine ⟨?_, findHeadCapture_first, findHeadCapture_none_iff, titleLineScan_some,
    titleLineScan_none_iff, ?_, ?_, by decide⟩
  · intro content block i h
    constructor
    · unfold extractExampleTitleFromContext
      rw [h]
    · simp only [List.length_drop, List.length_take]
      omega
  · intro fb
    exact ⟨rfl, rfl⟩
  · intro s fb hs
    show (if s.length = 0 then fb else s) = s
    rw [if_neg (fun h => hs (List.length_eq_zero.mp h))]

/-- Claim C4, counterexample: a directive line carrying content is removed
entirely, not preserved — `=item foo` and `=over 4` vanish from the rendered
output. -/
theorem c4_counterexample :
    convertPodToReadme (ofStr "a\n=item foo\nb") = ofStr "a\nb" ∧
    convertPodToReadme (ofStr "x\n=over 4\ny") = ofStr "x\ny" :=
  ⟨rfl, rfl⟩

/-- Claim C4, amended: the renderer removes a line exactly when it begins
with one of the five directive markers, regardless of any trailing content
on the line; bare directive lines are likewise removed. -/
theorem c4_directive_strip_amended :
    (∀ (ls : List (List Char)) (l : List Char),
      l ∈ removeDirectiveLines ls ↔ l ∈ ls ∧ isDirectiveLine l = false) ∧
    convertPodToReadme (ofStr "=pod\na\n=cut") = ofStr "a" := by
  constructor
  · intro ls l
    simp [removeDirectiveLines, List.mem_filter]
  · rfl

/-- Claim C5, counterexample: a run of two consecutive blank lines (three
newline characters) is not preserved — it collapses to one blank line, both
in the collapse step alone and in the full renderer; a single blank line is
preserved. -/
theorem c5_counterexample :
    collapseNewlines (ofStr "a\n\n\nb") = ofStr "a\n\nb" ∧
    convertPodToReadme (ofStr "a\n\n\nb") = ofStr "a\n\nb" ∧
    convertPodToReadme (ofStr "a\n\nb") = ofStr "a\n\nb" :=
  ⟨rfl, rfl, rfl⟩

/-- Claim C5, amended: in the renderer's blank-line normalisation, every
maximal run of `k` newline characters collapses to `min k 2` newlines: runs
of three or more newlines (two or more blank lines) become exactly one blank
line, runs of one or two newlines are preserved. -/
theorem c5_blank_collapse_amended (a b : List Char) (k : Nat)
    (ha : a.getLast? ≠ some '\n') (hb : b.head? ≠ some '\n') :
    collapseNewlines (a ++ List.replicate k '\n' ++ b)
      = collapseNewlines a ++ List.replicate (min k 2) '\n' ++ collapseNewlines b := by
  rcases eq_or_ne a [] with h | h
  · subst h
    simp only [List.nil_append, collapseNewlines]
    simpa using collapseAux_run b hb k 0
  · simp only [collapseNewlines]
    rw [List.append_assoc, collapseAux_append a h ha (List.replicate k '\n' ++ b) 0,
      collapseAux_run b hb k 0]
    simp [List.append_assoc]

/-- Claim C5, witness: the amended collapse at a concrete three-newline run. -/
theorem c5_witness :
    collapseNewlines (ofStr "a" ++ List.replicate 3 '\n' ++ ofStr "b")
      = collapseNewlines (ofStr "a") ++ List.replicate (min 3 2) '\n' ++
        collapseNewlines (ofStr "b") :=
  c5_blank_collapse_amended (ofStr "a") (ofStr "b") 3 (by decide) (by decide)

/-- Claim C6, counterexample: a two-line code block whose de-indented text
also occurs as unindented plain lines earlier in the section is found by the
substring search, so its title is a context line (`My Title`), not the
fallback, and its description is present, not absent. -/
theorem c6_counterexample :
    c6block ∈ extractPodCodeBlocks c6content ∧ '\n' ∈ c6block ∧
    extractExampleTitleFromContext c6content c6block = some (ofStr "My Title") ∧
    extractExampleDescriptionFromContext c6content c6block = some (ofStr "use Foo; use Bar;") := by
  decide

/-- Claim C6, amended: when the searched block text occurs nowhere in the
section text the title helper and the description helper both return
nothing (so the title falls back and the description is absent); when it
does occur — possibly away from the block's own indented lines — both
helpers use its first occurrence: the index the search returns is an
occurrence and every smaller index is not. -/
theorem c6_search_amended :
    (∀ content block : List Char, idxOf content block = none →
      extractExampleTitleFromContext content block = none ∧
      extractExampleDescriptionFromContext content block = none) ∧
    (∀ hay needle : List Char, ∀ i, idxOf hay needle = some i →
      needle.isPrefixOf (hay.drop i) = true ∧
      ∀ j, j < i → needle.isPrefixOf (hay.drop j) = false) := by
  constructor
  · intro content block h
    constructor
    · unfold extractExampleTitleFromContext
      rw [h]
    · unfold extractExampleDescriptionFromContext
      rw [h]
  · intro hay needle i h
    exact idxOf_first needle hay i h

/-- Claim C6, witness: the amended search behaviour at concrete inputs. -/
theorem c6_witness :
    idxOf (ofStr "abc") (ofStr "zz") = none ∧
    extractExampleTitleFromContext (ofStr "abc") (ofStr "zz") = none ∧
    extractExampleDescriptionFromContext (ofStr "abc") (ofStr "zz") = none := by
  refine ⟨by decide, ?_, ?_⟩
  · exact (c6_search_amended.1 (ofStr "abc") (ofStr "zz") (by decide)).1
  · exact (c6_search_amended.1 (ofStr "abc") (ofStr "zz") (by decide)).2

/-- Claim C7: the extractor's body never produces an error — it is the plain
concatenation of the three passes — the catch clause maps any error to the
empty list, and the extractor always returns the body's list, so no
exception ever propagates to the caller. -/
theorem c7_extractor_never_throws (podContent : List Char) :
    parseUsageExamplesBody podContent =
      Except.ok (extractSynopsisExamples podContent ++ extractExampleSectionExamples podContent ++
        extractCodeBlockExamples podContent) ∧
    (∀ e, catchToEmptyList (Except.error e) = []) ∧
    parseUsageExamples podContent =
      extractSynopsisExamples podContent ++ extractExampleSectionExamples podContent ++
        extractCodeBlockExamples podContent :=
  ⟨rfl, fun _ => rfl, rfl⟩

/-- Claim C8: every code block produced by the indented-block extraction is
non-empty after trimming, and every usage example emitted by any of the
three passes has a code field that is non-empty after trimming. -/
theorem c8_nonempty_code :
    (∀ content b : List Char, b ∈ extractPodCodeBlocks content → trimJs b ≠ []) ∧
    (∀ (podContent : List Char) (ex : UsageExample),
      ex ∈ parseUsageExamples podContent → trimJs ex.code ≠ []) := by
  have key : ∀ (c : List Char) (x : List Char), x = trimJs c → 0 < (trimJs c).length →
      trimJs x ≠ [] := by
    intro c x hx h
    rw [hx, trimJs_trimJs]
    intro hnil
    rw [hnil] at h
    simp at h
  constructor
  · intro content b hb
    obtain ⟨htrim, hlen⟩ := extractPodCodeBlocks_trim content b hb
    rw [htrim]
    intro hnil
    rw [hnil] at hlen
    simp at hlen
  · intro pod ex hex
    have hsplit : parseUsageExamples pod
        = extractSynopsisExamples pod ++ extractExampleSectionExamples pod ++
          extractCodeBlockExamples pod := rfl
    rw [hsplit] at hex
    rcases List.mem_append.mp hex with hex1 | hex3
    · rcases List.mem_append.mp hex1 with hexa | hexb
      · obtain ⟨c, hc, h⟩ := mem_synopsis_code pod ex hexa
        exact key c ex.code hc h
      · obtain ⟨c, hc, h⟩ := mem_section_code pod ex hexb
        exact key c ex.code hc h
    · obtain ⟨c, hc, h⟩ := mem_codeblock_code pod ex hex3
      exact key c ex.code hc h

/-- Claim C8, witness: the invariant at a concrete extracted block. -/
theorem c8_witness :
    ofStr "use X;" ∈ extractPodCodeBlocks (ofStr "  use X;\n") ∧
    trimJs (ofStr "use X;") ≠ [] :=
  ⟨by decide, c8_nonempty_code.1 (ofStr "  use X;\n") (ofStr "use X;") (by decide)⟩

/-- Claim C9: the classifier returns true exactly when some signature of the
fixed list matches (logical OR of independent predicates), and any
permutation of the signature list yields the same boolean result, so
evaluation order and short-circuiting never change the outcome. -/
theorem c9_classifier_or (s : List Char) :
    (looksLikePerl s = true ↔ ∃ p ∈ perlIndicators, p s = true) ∧
    (∀ l : List (List Char → Bool), l.Perm perlIndicators →
      l.any (fun p => p s) = looksLikePerl s) := by
  constructor
  · exact List.any_eq_true
  · intro l hl; exact perm_any_eq l perlIndicators hl _

/-- Claim C9, witness: the reversed signature list agrees with the
classifier on a concrete Perl snippet. -/
theorem c9_witness :
    List.any perlIndicators.reverse (fun p => p (ofStr "my $x = 1;"))
        = looksLikePerl (ofStr "my $x = 1;") ∧
      looksLikePerl (ofStr "my $x = 1;") = true :=
  ⟨(c9_classifier_or (ofStr "my $x = 1;")).2 perlIndicators.reverse
      (List.reverse_perm perlIndicators), by decide⟩

/-- Claim C10: the blank-line collapsing step is idempotent — applying it
twice yields the same result as applying it once, for every string. -/
theorem c10_collapse_idempotent (x : List Char) :
    collapseNewlines (collapseNewlines x) = collapseNewlines x := by
  have := collapseAux_min x 0
  simpa [collapseNewlines] using this

end CpanReadme
